import Mathlib

/-!
Verification development for the layered configuration-value resolution
engine of `pkg/cli/values/options.go` (the `values` package).

The source package exists in two revisions inside the repository: the
current one (with `Options.MergeValues`, `readFile`, `listFilesRecursive`)
and the previous one (with `mergeMaps`, `mergeValuesFile`, `readFile`,
`recursiveListOfFiles`).  Both are embedded below.

External collaborators (the getter providers, the YAML/JSON codecs, the
`strvals` assignment parsers, the operating-system file API) are modelled
as explicit capabilities passed in an `Env` record; components of the
repository that are not part of the embedded package are modelled from the
spec where a claim depends on them, and each such definition is marked.
-/

namespace Helm

/-- A configuration value as produced by parsing a document: the Go
`any` universe restricted to what the codecs produce — scalars
(string / number / bool / null), sequences, and string-keyed mappings.
A mapping is represented as an association list; the well-formedness
predicate `wfA` below states that keys are unique, which is the data-model
invariant of parsed documents. -/
inductive Value where
  | str (s : String)
  | num (n : Int)
  | boolean (b : Bool)
  | vnull
  | seq (xs : List Value)
  | vmap (m : List (String × Value))

/-- Reading a key of a Go `map[string]any` modelled as an association
list: the first binding of the key, if any. -/
def lookupA (m : List (String × Value)) (k : String) : Option Value :=
  match m with
  | [] => none
  | (k1, v) :: rest => if k1 = k then some v else lookupA rest k

/-- Writing a key of a Go `map[string]any` modelled as an association
list: replace the first binding of the key, or append a new binding. -/
def setA (m : List (String × Value)) (k : String) (v : Value) :
    List (String × Value) :=
  match m with
  | [] => [(k, v)]
  | (k1, v1) :: rest =>
    if k1 = k then (k1, v) :: rest else (k1, v1) :: setA rest k v

/-- The Go type assertion `v.(map[string]any)`: the mapping payload when
`v` is a mapping, `none` otherwise. -/
def asMap : Value → Option (List (String × Value))
  | .vmap m => some m
  | _ => none

mutual

/-- Size measure on values, used for termination of the recursive merge. -/
def sizeV : Value → Nat
  | .vmap m => 1 + sizeA m
  | .seq _ => 1
  | .str _ => 1
  | .num _ => 1
  | .boolean _ => 1
  | .vnull => 1

/-- Size measure on mappings. -/
def sizeA : List (String × Value) → Nat
  | [] => 0
  | (_, v) :: rest => 1 + sizeV v + sizeA rest

end

/-- `mergeMaps` from the source: start from a shallow copy of `a`
(here: the accumulator argument itself), then for each binding `(k, v)`
of `b` in order: when `v` is a mapping and the accumulator currently has
a mapping at `k`, store the recursive merge at `k`; otherwise store `v`
at `k`. -/
def mergeMaps (a b : List (String × Value)) : List (String × Value) :=
  match b with
  | [] => a
  | (k, Value.vmap vm) :: rest =>
    match (lookupA a k).bind asMap with
    | some bv => mergeMaps (setA a k (Value.vmap (mergeMaps bv vm))) rest
    | none => mergeMaps (setA a k (Value.vmap vm)) rest
  | (k, v) :: rest => mergeMaps (setA a k v) rest
termination_by sizeA b
decreasing_by
  all_goals simp [sizeA, sizeV]
  all_goals omega

/-- One iteration of the `mergeMaps` loop body: how the accumulator is
updated for a single binding `(k, v)` of the overlay. -/
def mergeEntry (a : List (String × Value)) (k : String) (v : Value) :
    List (String × Value) :=
  match v with
  | Value.vmap vm =>
    match (lookupA a k).bind asMap with
    | some bv => setA a k (Value.vmap (mergeMaps bv vm))
    | none => setA a k (Value.vmap vm)
  | _ => setA a k v

/-- The keys of a mapping, in binding order. -/
def keysOf (m : List (String × Value)) : List String := m.map Prod.fst

/-- Boolean string-list membership. -/
def memS (k : String) : List String → Bool
  | [] => false
  | x :: rest => (x = k) || memS k rest

mutual

/-- Well-formedness of a value: every mapping reachable inside it has
unique keys.  Parsed documents satisfy this by construction. -/
def wfV : Value → Bool
  | .vmap m => wfA m
  | .seq _ => true
  | .str _ => true
  | .num _ => true
  | .boolean _ => true
  | .vnull => true

/-- Well-formedness of a mapping: keys are unique and every value is
well-formed. -/
def wfA : List (String × Value) → Bool
  | [] => true
  | (k, v) :: rest =>
    !(memS k (keysOf rest)) && wfV v && wfA rest

end

/-- Unique keys at the top level of a mapping only. -/
def nodupKeys : List (String × Value) → Bool
  | [] => true
  | (k, _) :: rest => !(memS k (keysOf rest)) && nodupKeys rest

/-! ## File-system model and the directory walkers

`filepath.WalkDir` (current revision) and `filepath.Walk` (previous
revision) both visit a directory tree in preorder, reading the entries of
each directory sorted lexicographically by name.  The tree is modelled as
`FSTree`; a walk produces the visited entries as component paths relative
to the root, joined with the separator to form the reported path strings.
-/

/-- Strict character order by code point (equals byte order under
UTF-8, hence Go's byte-wise comparison). -/
def chLt (a b : Char) : Bool := decide (a.toNat < b.toNat)

/-- Strict lexicographic order on character lists. -/
def lexLtCh : List Char → List Char → Bool
  | [], [] => false
  | [], _ :: _ => true
  | _ :: _, [] => false
  | a :: as, b :: bs =>
    if chLt a b then true
    else if chLt b a then false
    else lexLtCh as bs

/-- Go's `<` on strings: strict byte-wise lexicographic order. -/
def strLt (a b : String) : Bool := lexLtCh a.data b.data

/-- Go's `<=` on strings. -/
def strLe (a b : String) : Bool := !(strLt b a)

/-- Stable insertion into a sorted list. -/
def insertBy (le : α → α → Bool) (x : α) : List α → List α
  | [] => [x]
  | y :: ys => if le x y then x :: y :: ys else y :: insertBy le x ys

/-- Insertion sort, used to model the lexical-name ordering of directory
entries during a walk. -/
def sortBy (le : α → α → Bool) : List α → List α
  | [] => []
  | x :: xs => insertBy le x (sortBy le xs)

/-- A file-system subtree. -/
inductive FSTree where
  | file : FSTree
  | dir (children : List (String × FSTree)) : FSTree

/-- `d.IsDir()`. -/
def isDirT : FSTree → Bool
  | .file => false
  | .dir _ => true

/-- Sort the per-child walk results by child name (the walker reads
directory entries in lexical name order) and concatenate them. -/
def flattenSorted (l : List (String × List (List String × Bool))) :
    List (List String × Bool) :=
  ((sortBy (fun a b => strLe a.1 b.1) l).map Prod.snd).flatten

mutual

/-- The walk of one subtree: every visited entry as (components relative
to the root, IsDir flag), in visit order.  The root itself is visited
first, then each child subtree in lexical name order. -/
def walkVisit : FSTree → List (List String × Bool)
  | .file => [([], false)]
  | .dir cs => ([], true) :: flattenSorted (walkChildren cs)

/-- The walks of the children of a directory, keyed by child name, each
with the child's name prepended to its component paths. -/
def walkChildren : List (String × FSTree) → List (String × List (List String × Bool))
  | [] => []
  | (n, t) :: rest =>
    (n, (walkVisit t).map (fun p => (n :: p.1, p.2))) :: walkChildren rest

end

/-- `filepath.Join` on components that contain no separator. -/
def joinPath (l : List String) : String := String.intercalate "/" l

/-- Scanner for `filepath.Ext`, over the reversed character list of the
path; `acc` holds the already-scanned suffix in forward order. -/
def extGo : List Char → List Char → String
  | [], _ => ""
  | c :: rest, acc =>
    if c = '/' then ""
    else if c = '.' then String.mk (c :: acc)
    else extGo rest (c :: acc)

/-- `filepath.Ext`: the suffix of the path starting at the final dot of
the final separator-delimited element, or empty when that element has no
dot. -/
def extOf (s : String) : String := extGo s.data.reverse []

/-- The files collected by `listFilesRecursive` (current revision),
before joining the components into path strings: non-directory entries
whose reported path matches the extension filter (or all non-directory
entries when the extension is empty). -/
def walkFiles (directory ext : String) (t : FSTree) :
    List (List String × Bool) :=
  (walkVisit t).filter (fun p =>
    !p.2 && (ext == "" || extOf (joinPath (directory :: p.1)) == ext))

/-- `listFilesRecursive` from the current revision, on a resolved root
subtree: walk the tree, keep non-directory entries matching the
extension, report their joined paths. -/
def listFilesRecursiveT (directory ext : String) (t : FSTree) :
    List String :=
  (walkFiles directory ext t).map (fun p => joinPath (directory :: p.1))

/-- `recursiveListOfFiles` from the previous revision, on a resolved root
subtree: identical walk and extension filter, but with no check that the
visited entry is not a directory. -/
def recursiveListOfFilesT (dir ext : String) (t : FSTree) : List String :=
  ((walkVisit t).filter (fun p =>
      ext == "" || extOf (joinPath (dir :: p.1)) == ext)).map
    (fun p => joinPath (dir :: p.1))

/-- Resolve a relative component path inside a subtree. -/
def childLookup (cs : List (String × FSTree)) (n : String) : Option FSTree :=
  match cs with
  | [] => none
  | (n1, t) :: rest => if n1 = n then some t else childLookup rest n

/-- The entry a component path names under the root, if any. -/
def entryAt (t : FSTree) : List String → Option FSTree
  | [] => some t
  | n :: rest =>
    match t with
    | .file => none
    | .dir cs =>
      match childLookup cs n with
      | none => none
      | some c => entryAt c rest

/-- The names of a directory's children, in order. -/
def namesOf (cs : List (String × FSTree)) : List String := cs.map Prod.fst

/-- Unique child names in one directory. -/
def nodupNames : List (String × FSTree) → Bool
  | [] => true
  | (n, _) :: rest => !(memS n (namesOf rest)) && nodupNames rest

mutual

/-- Well-formedness of a file-system subtree: every directory has
uniquely named children (true of a real file system). -/
def wfT : FSTree → Bool
  | .file => true
  | .dir cs => nodupNames cs && wfChildren cs

/-- Well-formedness of a children list. -/
def wfChildren : List (String × FSTree) → Bool
  | [] => true
  | (_, t) :: rest => wfT t && wfChildren rest

end

mutual

/-- Size of a file-system subtree, for strong induction. -/
def sizeT : FSTree → Nat
  | .file => 1
  | .dir cs => 1 + sizeC cs

/-- Size of a children list. -/
def sizeC : List (String × FSTree) → Nat
  | [] => 0
  | (_, t) :: rest => sizeT t + sizeC rest

end

/-- Strict lexicographic order on component paths: the order in which a
walk reports entries.  Note this is lexicographic on the slash-separated
components, not on the joined path strings. -/
def pathLt (p q : List String) : Prop :=
  List.Lex (fun a b => strLt a b = true) p q

/-! ## The merge pipeline

`Options.MergeValues` of the current revision, with its external
collaborators modelled as capabilities in an `Env` record:

* `loader.LoadValues` / `json.Unmarshal` — byte-to-tree codecs;
* the `strvals` assignment grammar — opaque parsers from an entry string
  to a dotted path and a value (the grammar is out of core scope);
* the getter providers, the OS file API and standard input.

Go's two-valued returns `(nil, err)` / `(m, nil)` are mirrored as a pair
of options at the top level of `MergeValues`. -/

/-- Error outcomes, each carrying the offending source identifier. -/
inductive Err where
  | retrieval (ref : String)
  | urlParse (ref : String)
  | traversal (dir : String)
  | format (path : String)
  | formatJSONObject (s : String)
  | formatJSONAssign (s : String)
  | setData (s : String)
  | setString (s : String)
  | setFile (s : String)
  | setLiteral (s : String)

/-- A parsed locator; only its scheme is consulted. -/
structure URL where
  scheme : String

/-- A registered retrieval capability (`getter.Getter`). -/
structure Getter where
  get : String → Except Err String

/-- The external collaborators of the pipeline. -/
structure Env where
  stdin : Except Err String
  urlParse : String → Option URL
  byScheme : String → Option Getter
  osReadFile : String → Except Err String
  fsRoot : String → Option FSTree
  loadValues : String → Option (List (String × Value))
  parseJSONObject : String → Option (List (String × Value))
  parseJSONAssign : String → Option (List String × Value)
  parseSet : String → Option (List String × Value)
  parseSetString : String → Option (List String × Value)
  parseSetFile : String → Option (List String × String)
  parseSetLiteral : String → Option (List String × Value)

/-- `strings.TrimSpace` on ASCII whitespace. -/
def isSpaceCh (c : Char) : Bool :=
  c = ' ' || c = '\t' || c = '\n' || c = '\r' ||
    c = Char.ofNat 11 || c = Char.ofNat 12

/-- Trim whitespace from both ends (models `strings.TrimSpace`). -/
def trimS (s : String) : String :=
  String.mk (((s.data.dropWhile isSpaceCh).reverse.dropWhile
    isSpaceCh).reverse)

/-- `readFile` from the source: the standard-input sentinel first, then
locator parsing, then scheme dispatch to a registered getter, with a
local file read as the fallback when no getter matches the scheme. -/
def readFile (filePath : String) (env : Env) : Except Err String :=
  if trimS filePath = "-" then env.stdin
  else
    match env.urlParse filePath with
    | none => .error (.urlParse filePath)
    | some u =>
      match env.byScheme u.scheme with
      | none => env.osReadFile filePath
      | some g => g.get filePath

/-- Modelled from the spec: the Inline-Assignment Adapter (the `strvals`
package, which is not part of the embedded source files) sets the
addressed dotted path in the target tree, creating intermediate mappings
as needed and overwriting any existing scalar or mapping found along the
path.  The adapter's grammar (how an entry string is split into a path
and a value) stays an opaque capability of `Env`. -/
def setPath (path : List String) (v : Value) (t : List (String × Value)) :
    List (String × Value) :=
  match path with
  | [] => t
  | [k] => setA t k v
  | k :: rest =>
    let sub :=
      match (lookupA t k).bind asMap with
      | some m => m
      | none => []
    setA t k (Value.vmap (setPath rest v sub))

/-- The source's test `len(trimmedValue) > 0 && trimmedValue[0] == '{'`:
does the (already trimmed) text start with the structured-object opening
delimiter? -/
def startsWithBrace (s : String) : Bool :=
  match s.data with
  | [] => false
  | c :: _ => c = Char.ofNat 123

/-- `listFilesRecursive` at the environment level: resolve the root
directory (a missing root is the walker error case, wrapped as a
traversal failure naming the directory), then walk. -/
def listFilesRecursive (directory extension : String) (env : Env) :
    Except Err (List String) :=
  match env.fsRoot directory with
  | none => .error (.traversal directory)
  | some t => .ok (listFilesRecursiveT directory extension t)

/-- Tier 1 of `MergeValues`: collect the `.yaml` files of every listed
directory, in caller order, all files of one directory before the next. -/
def collectDirFiles (dirs : List String) (env : Env) :
    Except Err (List String) :=
  match dirs with
  | [] => .ok []
  | d :: rest =>
    match listFilesRecursive d ".yaml" env with
    | .error e => .error e
    | .ok files =>
      match collectDirFiles rest env with
      | .error e => .error e
      | .ok more => .ok (files ++ more)

/-- The file-merging loop of `MergeValues` (tiers 1+2): fetch each path,
parse it, deep-merge it into the accumulator. -/
def mergeFilesLoop (env : Env) (files : List String)
    (base : List (String × Value)) : Except Err (List (String × Value)) :=
  match files with
  | [] => .ok base
  | f :: rest =>
    match readFile f env with
    | .error e => .error e
    | .ok raw =>
      match env.loadValues raw with
      | none => .error (.format f)
      | some m => mergeFilesLoop env rest (mergeMaps base m)

/-- The `--set-json` loop of `MergeValues` (tier 3): an entry whose
trimmed text starts with the opening brace is parsed as a whole mapping
and deep-merged; any other entry is one flat assignment applied to the
accumulator. -/
def jsonLoop (env : Env) (vals : List String)
    (base : List (String × Value)) : Except Err (List (String × Value)) :=
  match vals with
  | [] => .ok base
  | v :: rest =>
    if startsWithBrace (trimS v) then
      match env.parseJSONObject (trimS v) with
      | none => .error (.formatJSONObject v)
      | some m => jsonLoop env rest (mergeMaps base m)
    else
      match env.parseJSONAssign v with
      | none => .error (.formatJSONAssign v)
      | some pv => jsonLoop env rest (setPath pv.1 pv.2 base)

/-- A flat-assignment loop (tiers 4, 5 and 7 differ only in the parser
capability and the error constructor). -/
def assignLoop (parse : String → Option (List String × Value))
    (mkErr : String → Err) (vals : List String)
    (base : List (String × Value)) : Except Err (List (String × Value)) :=
  match vals with
  | [] => .ok base
  | v :: rest =>
    match parse v with
    | none => .error (mkErr v)
    | some pv => assignLoop parse mkErr rest (setPath pv.1 pv.2 base)

/-- The `--set-file` loop of `MergeValues` (tier 6): parse the entry
into a path and a file reference, fetch the reference's bytes, assign
the content string at the path.  Both a grammar failure and a fetch
failure surface as the tier's assignment error naming the entry. -/
def fileLoop (env : Env) (vals : List String)
    (base : List (String × Value)) : Except Err (List (String × Value)) :=
  match vals with
  | [] => .ok base
  | v :: rest =>
    match env.parseSetFile v with
    | none => .error (.setFile v)
    | some pr =>
      match readFile pr.2 env with
      | .error _ => .error (.setFile v)
      | .ok raw => fileLoop env rest (setPath pr.1 (Value.str raw) base)

/-- `Options` of the current revision: the seven source tiers. -/
structure Options where
  ValuesDirectories : List String
  ValueFiles : List String
  StringValues : List String
  Values : List String
  FileValues : List String
  JSONValues : List String
  LiteralValues : List String

/-- `Options.MergeValues` of the current revision: the seven tiers in
rank order, any failure returning the nil tree with the error, success
returning the accumulator with no error. -/
def MergeValues (opts : Options) (env : Env) :
    Option (List (String × Value)) × Option Err :=
  match collectDirFiles opts.ValuesDirectories env with
  | .error e => (none, some e)
  | .ok dirFiles =>
    match mergeFilesLoop env (dirFiles ++ opts.ValueFiles) [] with
    | .error e => (none, some e)
    | .ok base1 =>
      match jsonLoop env opts.JSONValues base1 with
      | .error e => (none, some e)
      | .ok base2 =>
        match assignLoop env.parseSet Err.setData opts.Values base2 with
        | .error e => (none, some e)
        | .ok base3 =>
          match assignLoop env.parseSetString Err.setString
              opts.StringValues base3 with
          | .error e => (none, some e)
          | .ok base4 =>
            match fileLoop env opts.FileValues base4 with
            | .error e => (none, some e)
            | .ok base5 =>
              match assignLoop env.parseSetLiteral Err.setLiteral
                  opts.LiteralValues base5 with
              | .error e => (none, some e)
              | .ok base6 => (some base6, none)

/-- A concrete environment used by the witnesses: one values directory
`d1` holding `values.yaml` (captain luffy), one explicit file `f1.yaml`
(captain usopp), one directory `foo` holding a `.yml` and a `.yaml`
file, no registered getters, every other capability failing. -/
def demoEnv : Env where
  stdin := .ok "captain: stdin"
  urlParse := fun _ => some ⟨""⟩
  byScheme := fun _ => none
  osReadFile := fun p =>
    if p = "d1/values.yaml" then .ok "captain: luffy"
    else if p = "f1.yaml" then .ok "captain: usopp"
    else .error (.retrieval p)
  fsRoot := fun d =>
    if d = "d1" then some (FSTree.dir [("values.yaml", FSTree.file)])
    else if d = "foo" then
      some (FSTree.dir [("a.yml", FSTree.file), ("b.yaml", FSTree.file)])
    else none
  loadValues := fun raw =>
    if raw = "captain: luffy" then some [("captain", Value.str "luffy")]
    else if raw = "captain: usopp" then some [("captain", Value.str "usopp")]
    else none
  parseJSONObject := fun _ => none
  parseJSONAssign := fun _ => none
  parseSet := fun _ => none
  parseSetString := fun _ => none
  parseSetFile := fun _ => none
  parseSetLiteral := fun _ => none

/-! ## The tier plan (spec side)

The spec describes `MergeValues` as a rank-ordered sequence of primitive
merge steps — deep-merge a parsed tree, or apply one flat dotted-path
assignment.  `plan` materializes that sequence, tier by tier in the
spec's rank order; the refinement theorem shows `MergeValues` equals the
fold of the plan, and the precedence theorem derives last-writer-wins. -/

/-- One primitive step of the pipeline. -/
inductive Step where
  | mergeDoc (m : List (String × Value))
  | assign (path : List String) (v : Value)

/-- Apply one step to the accumulator. -/
def applyStep (t : List (String × Value)) : Step → List (String × Value)
  | .mergeDoc m => mergeMaps t m
  | .assign p v => setPath p v t

/-- Steps of the document-file tiers (1 and 2). -/
def planFiles (env : Env) : List String → Except Err (List Step)
  | [] => .ok []
  | f :: rest =>
    match readFile f env with
    | .error e => .error e
    | .ok raw =>
      match env.loadValues raw with
      | none => .error (.format f)
      | some m =>
        match planFiles env rest with
        | .error e => .error e
        | .ok ss => .ok (.mergeDoc m :: ss)

/-- Steps of the raw-structured-payload tier (3). -/
def planJson (env : Env) : List String → Except Err (List Step)
  | [] => .ok []
  | v :: rest =>
    if startsWithBrace (trimS v) then
      match env.parseJSONObject (trimS v) with
      | none => .error (.formatJSONObject v)
      | some m =>
        match planJson env rest with
        | .error e => .error e
        | .ok ss => .ok (.mergeDoc m :: ss)
    else
      match env.parseJSONAssign v with
      | none => .error (.formatJSONAssign v)
      | some pv =>
        match planJson env rest with
        | .error e => .error e
        | .ok ss => .ok (.assign pv.1 pv.2 :: ss)

/-- Steps of a flat-assignment tier (4, 5 and 7). -/
def planAssign (parse : String → Option (List String × Value))
    (mkErr : String → Err) : List String → Except Err (List Step)
  | [] => .ok []
  | v :: rest =>
    match parse v with
    | none => .error (mkErr v)
    | some pv =>
      match planAssign parse mkErr rest with
      | .error e => .error e
      | .ok ss => .ok (.assign pv.1 pv.2 :: ss)

/-- Steps of the file-content assignment tier (6). -/
def planFile (env : Env) : List String → Except Err (List Step)
  | [] => .ok []
  | v :: rest =>
    match env.parseSetFile v with
    | none => .error (.setFile v)
    | some pr =>
      match readFile pr.2 env with
      | .error _ => .error (.setFile v)
      | .ok raw =>
        match planFile env rest with
        | .error e => .error e
        | .ok ss => .ok (.assign pr.1 (Value.str raw) :: ss)

/-- The full plan: the seven tiers' steps concatenated in the fixed
rank order — directories, named documents, raw structured payloads,
inline assignments, string assignments, file-content assignments,
literal assignments. -/
def plan (opts : Options) (env : Env) : Except Err (List Step) :=
  match collectDirFiles opts.ValuesDirectories env with
  | .error e => .error e
  | .ok dirFiles =>
    match planFiles env (dirFiles ++ opts.ValueFiles) with
    | .error e => .error e
    | .ok s1 =>
      match planJson env opts.JSONValues with
      | .error e => .error e
      | .ok s2 =>
        match planAssign env.parseSet Err.setData opts.Values with
        | .error e => .error e
        | .ok s3 =>
          match planAssign env.parseSetString Err.setString
              opts.StringValues with
          | .error e => .error e
          | .ok s4 =>
            match planFile env opts.FileValues with
            | .error e => .error e
            | .ok s5 =>
              match planAssign env.parseSetLiteral Err.setLiteral
                  opts.LiteralValues with
              | .error e => .error e
              | .ok s6 => .ok (s1 ++ s2 ++ s3 ++ s4 ++ s5 ++ s6)

/-- Does a step bind the top-level key `k` at all? -/
def stepTouches (s : Step) (k : String) : Bool :=
  match s with
  | .mergeDoc m => memS k (keysOf m)
  | .assign p _ =>
    match p with
    | [] => false
    | k1 :: _ => k1 == k

/-- The value a step writes at top-level key `k`, when it writes `k`
directly (a document binding `k`, or an assignment whose whole path is
`k`). -/
def topWrite (s : Step) (k : String) : Option Value :=
  match s with
  | .mergeDoc m => lookupA m k
  | .assign p v =>
    match p with
    | [k1] => if k1 = k then some v else none
    | _ => none

/-- A step's document has unique top-level keys (the invariant of parsed
documents; trivially true of assignments). -/
def stepNodupB : Step → Bool
  | .mergeDoc m => nodupKeys m
  | .assign _ _ => true

/-! ## Heap-level model of `mergeMaps` (the non-mutation claim)

In Go, maps are references into a heap.  To state that `mergeMaps`
mutates neither input, the function is re-embedded over an explicit
heap: map values are references, `out := make(map[string]any, len(a))`
followed by the copy of `a` is an allocation, `out[k] = ...` is a store
to the allocated cell, and the recursive call dereferences the two map
references.  The frame theorem shows every pre-existing cell is left
untouched and the returned reference is freshly allocated. -/

/-- A Go value at heap level: a scalar payload or a map reference. -/
inductive GoVal where
  | scalar (s : String)
  | mref (a : Nat)

/-- Lookup in one heap cell's association list. -/
def lookupG (m : List (String × GoVal)) (k : String) : Option GoVal :=
  match m with
  | [] => none
  | (k1, v) :: rest => if k1 = k then some v else lookupG rest k

/-- Store into one heap cell's association list. -/
def setG (m : List (String × GoVal)) (k : String) (v : GoVal) :
    List (String × GoVal) :=
  match m with
  | [] => [(k, v)]
  | (k1, v1) :: rest =>
    if k1 = k then (k1, v) :: rest else (k1, v1) :: setG rest k v

/-- Cell lookup by address. -/
def readCells (cs : List (Nat × List (String × GoVal))) (a : Nat) :
    Option (List (String × GoVal)) :=
  match cs with
  | [] => none
  | (a1, m) :: rest => if a1 = a then some m else readCells rest a

/-- Cell update by address. -/
def writeCells (cs : List (Nat × List (String × GoVal))) (a : Nat)
    (m : List (String × GoVal)) : List (Nat × List (String × GoVal)) :=
  match cs with
  | [] => []
  | (a1, m1) :: rest =>
    if a1 = a then (a1, m) :: rest else (a1, m1) :: writeCells rest a m

/-- The heap of map cells, addresses handed out in allocation order. -/
structure Heap where
  cells : List (Nat × List (String × GoVal))
  next : Nat

/-- Dereference a map. -/
def Heap.read (h : Heap) (a : Nat) : Option (List (String × GoVal)) :=
  readCells h.cells a

/-- `make` + copy: allocate a fresh cell holding `m`. -/
def Heap.alloc (h : Heap) (m : List (String × GoVal)) : Heap × Nat :=
  (⟨h.cells ++ [(h.next, m)], h.next + 1⟩, h.next)

/-- `out[k] = v`: overwrite the cell at `a`. -/
def Heap.write (h : Heap) (a : Nat) (m : List (String × GoVal)) : Heap :=
  ⟨writeCells h.cells a m, h.next⟩

mutual

/-- Heap-level `mergeMaps`: dereference both arguments, allocate `out`
as a shallow copy of `a`'s cell, then fold `b`'s bindings into `out`.
Fuel bounds the recursion depth (Go's trees are acyclic by construction;
an arbitrary heap is not provably so). -/
def mergeMapsH : Nat → Heap → Nat → Nat → Option (Heap × Nat)
  | 0, _, _, _ => none
  | fuel + 1, h, a, b =>
    match h.read a, h.read b with
    | some la, some lb =>
      match h.alloc la with
      | (h1, out) => mergeLoopH fuel h1 out lb
    | _, _ => none

/-- The loop over the overlay's bindings: when the binding holds a map
reference and `out` currently holds a map reference at the key, store a
reference to their recursive merge; otherwise store the binding's value. -/
def mergeLoopH : Nat → Heap → Nat → List (String × GoVal) →
    Option (Heap × Nat)
  | _, h, out, [] => some (h, out)
  | fuel, h, out, (k, GoVal.mref vb) :: rest =>
    (match h.read out with
    | none => none
    | some lo =>
      match lookupG lo k with
      | some (GoVal.mref ba) =>
        match mergeMapsH fuel h ba vb with
        | none => none
        | some (h2, mout) =>
          match h2.read out with
          | none => none
          | some lo2 =>
            mergeLoopH fuel (h2.write out (setG lo2 k (GoVal.mref mout)))
              out rest
      | _ =>
        mergeLoopH fuel (h.write out (setG lo k (GoVal.mref vb))) out rest)
  | fuel, h, out, (k, v) :: rest =>
    match h.read out with
    | none => none
    | some lo => mergeLoopH fuel (h.write out (setG lo k v)) out rest

end

/-! ## Theorems -/

theorem mergeMaps_nil (a : List (String × Value)) : mergeMaps a [] = a := by
  simp [mergeMaps]

theorem mergeMaps_cons (a : List (String × Value)) (k : String) (v : Value)
    (rest : List (String × Value)) :
    mergeMaps a ((k, v) :: rest) = mergeMaps (mergeEntry a k v) rest := by
  cases v with
  | vmap vm =>
    cases hbv : (lookupA a k).bind asMap with
    | some bv => simp [mergeMaps, mergeEntry, hbv]
    | none => simp [mergeMaps, mergeEntry, hbv]
  | str s => simp [mergeMaps, mergeEntry]
  | num n => simp [mergeMaps, mergeEntry]
  | boolean bb => simp [mergeMaps, mergeEntry]
  | vnull => simp [mergeMaps, mergeEntry]
  | seq xs => simp [mergeMaps, mergeEntry]

theorem keysOf_cons (k : String) (v : Value) (rest : List (String × Value)) :
    keysOf ((k, v) :: rest) = k :: keysOf rest := rfl

theorem memS_iff (k : String) (l : List String) :
    memS k l = true ↔ k ∈ l := by
  induction l with
  | nil => simp [memS]
  | cons x rest ih =>
    by_cases h : x = k
    · simp [memS, h]
    · have h2 : ¬ k = x := fun he => h he.symm
      simp [memS, h, h2, ih]

theorem lookupA_setA_self (m : List (String × Value)) (k : String)
    (v : Value) : lookupA (setA m k v) k = some v := by
  induction m with
  | nil => simp [setA, lookupA]
  | cons hd tl ih =>
    obtain ⟨k1, v1⟩ := hd
    by_cases h : k1 = k
    · simp [setA, lookupA, h]
    · simp [setA, lookupA, h, ih]

theorem lookupA_setA_ne (m : List (String × Value)) (k k1 : String)
    (v : Value) (h : k1 ≠ k) :
    lookupA (setA m k v) k1 = lookupA m k1 := by
  induction m with
  | nil => simp [setA, lookupA, Ne.symm h]
  | cons hd tl ih =>
    obtain ⟨k2, v2⟩ := hd
    by_cases h2 : k2 = k
    · subst h2
      simp [setA, lookupA, Ne.symm h]
    · simp only [setA, if_neg h2, lookupA]
      by_cases h3 : k2 = k1
      · simp [h3]
      · simp [h3, ih]

theorem setA_eq_of_lookupA (m : List (String × Value)) (k : String)
    (v : Value) (h : lookupA m k = some v) : setA m k v = m := by
  induction m with
  | nil => simp [lookupA] at h
  | cons hd tl ih =>
    obtain ⟨k1, v1⟩ := hd
    by_cases h1 : k1 = k
    · simp only [lookupA, if_pos h1] at h
      injection h with h
      subst h
      simp [setA, h1]
    · simp only [lookupA, if_neg h1] at h
      simp [setA, h1, ih h]

/-- A `mergeEntry` for key `k` leaves every other key unchanged. -/
theorem lookupA_mergeEntry_ne (a : List (String × Value)) (k k1 : String)
    (v : Value) (h : k1 ≠ k) :
    lookupA (mergeEntry a k v) k1 = lookupA a k1 := by
  cases v with
  | vmap vm =>
    cases hbv : (lookupA a k).bind asMap with
    | some bv => simp [mergeEntry, hbv, lookupA_setA_ne _ _ _ _ h]
    | none => simp [mergeEntry, hbv, lookupA_setA_ne _ _ _ _ h]
  | str s => simp [mergeEntry, lookupA_setA_ne _ _ _ _ h]
  | num n => simp [mergeEntry, lookupA_setA_ne _ _ _ _ h]
  | boolean bb => simp [mergeEntry, lookupA_setA_ne _ _ _ _ h]
  | vnull => simp [mergeEntry, lookupA_setA_ne _ _ _ _ h]
  | seq xs => simp [mergeEntry, lookupA_setA_ne _ _ _ _ h]

/-- What a `mergeEntry` stores at its own key. -/
theorem lookupA_mergeEntry_self (a : List (String × Value)) (k : String)
    (v : Value) :
    lookupA (mergeEntry a k v) k =
      match asMap v, (lookupA a k).bind asMap with
      | some vm, some bv => some (Value.vmap (mergeMaps bv vm))
      | _, _ => some v := by
  cases v with
  | vmap vm =>
    cases hbv : (lookupA a k).bind asMap with
    | some bv =>
      simp only [mergeEntry, hbv]
      simp [asMap, lookupA_setA_self]
    | none =>
      simp only [mergeEntry, hbv]
      simp [asMap, lookupA_setA_self]
  | str s => simp [mergeEntry, asMap, lookupA_setA_self]
  | num n => simp [mergeEntry, asMap, lookupA_setA_self]
  | boolean bb => simp [mergeEntry, asMap, lookupA_setA_self]
  | vnull => simp [mergeEntry, asMap, lookupA_setA_self]
  | seq xs => simp [mergeEntry, asMap, lookupA_setA_self]

/-- Merging does not touch keys that the overlay does not bind. -/
theorem mergeMaps_lookup_of_not_mem (b : List (String × Value))
    (a : List (String × Value)) (k : String)
    (h : ¬ k ∈ keysOf b) :
    lookupA (mergeMaps a b) k = lookupA a k := by
  induction b generalizing a with
  | nil => simp [mergeMaps]
  | cons hd rest ih =>
    obtain ⟨k1, v1⟩ := hd
    rw [keysOf_cons] at h
    simp only [List.mem_cons, not_or] at h
    obtain ⟨hk1, hrest⟩ := h
    rw [mergeMaps_cons, ih _ hrest]
    exact lookupA_mergeEntry_ne _ _ _ _ hk1

theorem mem_keysOf (m : List (String × Value)) (k : String) (v : Value)
    (h : (k, v) ∈ m) : k ∈ keysOf m := by
  simp only [keysOf, List.mem_map]
  exact ⟨(k, v), h, rfl⟩

theorem lookupA_of_mem_nodup (m : List (String × Value)) (k : String)
    (v : Value) (hm : nodupKeys m = true) (h : (k, v) ∈ m) :
    lookupA m k = some v := by
  induction m with
  | nil => simp at h
  | cons hd rest ih =>
    obtain ⟨k1, v1⟩ := hd
    simp only [nodupKeys, Bool.and_eq_true, Bool.not_eq_true'] at hm
    obtain ⟨hnot, hrest⟩ := hm
    rcases List.mem_cons.mp h with h1 | h1
    · injection h1 with h1a h1b
      subst h1a; subst h1b
      simp [lookupA]
    · have hk1 : ¬ k1 = k := by
        intro he
        subst he
        have : k1 ∈ keysOf rest := mem_keysOf rest k1 v h1
        rw [← memS_iff] at this
        rw [this] at hnot
        exact Bool.false_ne_true hnot.symm
      simp [lookupA, hk1, ih hrest h1]

/-- C2 core characterization: the value of `mergeMaps a b` at any key,
given that the overlay `b` has unique top-level keys. -/
theorem mergeMaps_lookup_char (a b : List (String × Value))
    (hb : nodupKeys b = true) (k : String) :
    lookupA (mergeMaps a b) k =
      match lookupA b k with
      | none => lookupA a k
      | some v =>
        match asMap v, (lookupA a k).bind asMap with
        | some vm, some bv => some (Value.vmap (mergeMaps bv vm))
        | _, _ => some v := by
  induction b generalizing a with
  | nil => simp [mergeMaps, lookupA]
  | cons hd rest ih =>
    obtain ⟨k1, v1⟩ := hd
    simp only [nodupKeys, Bool.and_eq_true, Bool.not_eq_true'] at hb
    obtain ⟨hnot, hrest⟩ := hb
    rw [mergeMaps_cons]
    by_cases hk : k1 = k
    · subst hk
      have hnotmem : ¬ k1 ∈ keysOf rest := by
        rw [← memS_iff]
        simp [hnot]
      rw [mergeMaps_lookup_of_not_mem _ _ _ hnotmem, lookupA_mergeEntry_self]
      simp [lookupA]
    · rw [ih _ hrest, lookupA_mergeEntry_ne _ _ _ _ (Ne.symm hk)]
      simp [lookupA, hk]

/-- Witness for C2 at concrete trees: the overlay mapping at key `a` is
recursively merged with the base mapping at `a`. -/
theorem mergeMaps_lookup_char_witness :
    nodupKeys [("a", Value.vmap [("y", Value.num 3)]), ("t", Value.str "w")]
      = true ∧
    lookupA
      (mergeMaps [("a", Value.vmap [("x", Value.num 1), ("y", Value.num 2)])]
        [("a", Value.vmap [("y", Value.num 3)]), ("t", Value.str "w")]) "a" =
      some (Value.vmap [("x", Value.num 1), ("y", Value.num 3)]) := by
  refine ⟨rfl, ?_⟩
  rw [mergeMaps_lookup_char
    [("a", Value.vmap [("x", Value.num 1), ("y", Value.num 2)])]
    [("a", Value.vmap [("y", Value.num 3)]), ("t", Value.str "w")] rfl "a"]
  simp [lookupA, asMap, mergeMaps_cons, mergeMaps_nil, mergeEntry, setA]

/-- Absorption: merging an overlay whose every binding is already present
(with an identical value) in the accumulator, and whose mapping values
are self-merge fixpoints, leaves the accumulator unchanged. -/
theorem mergeMaps_absorb (b a : List (String × Value))
    (h1 : ∀ p ∈ b, lookupA a p.1 = some p.2)
    (h2 : ∀ p ∈ b, ∀ vm, p.2 = Value.vmap vm → mergeMaps vm vm = vm) :
    mergeMaps a b = a := by
  induction b with
  | nil => exact mergeMaps_nil a
  | cons hd rest ih =>
    obtain ⟨k, v⟩ := hd
    rw [mergeMaps_cons]
    have hlook : lookupA a k = some v := h1 (k, v) (by simp)
    have hent : mergeEntry a k v = a := by
      cases v with
      | vmap vm =>
        have hbind : (lookupA a k).bind asMap = some vm := by
          rw [hlook]; rfl
        have hself : mergeMaps vm vm = vm := h2 (k, Value.vmap vm) (by simp) vm rfl
        simp only [mergeEntry, hbind, hself]
        exact setA_eq_of_lookupA a k (Value.vmap vm) hlook
      | str s => exact setA_eq_of_lookupA a k _ hlook
      | num n => exact setA_eq_of_lookupA a k _ hlook
      | boolean bb => exact setA_eq_of_lookupA a k _ hlook
      | vnull => exact setA_eq_of_lookupA a k _ hlook
      | seq xs => exact setA_eq_of_lookupA a k _ hlook
    rw [hent]
    exact ih (fun p hp => h1 p (List.mem_cons_of_mem _ hp))
      (fun p hp => h2 p (List.mem_cons_of_mem _ hp))

theorem wfA_nodupKeys (m : List (String × Value)) (h : wfA m = true) :
    nodupKeys m = true := by
  induction m with
  | nil => rfl
  | cons hd rest ih =>
    obtain ⟨k, v⟩ := hd
    simp only [wfA, Bool.and_eq_true] at h
    simp only [nodupKeys, Bool.and_eq_true]
    exact ⟨h.1.1, ih h.2⟩

theorem wfV_of_mem (m : List (String × Value)) (k : String) (v : Value)
    (hm : wfA m = true) (h : (k, v) ∈ m) : wfV v = true := by
  induction m with
  | nil => simp at h
  | cons hd rest ih =>
    obtain ⟨k1, v1⟩ := hd
    simp only [wfA, Bool.and_eq_true] at hm
    rcases List.mem_cons.mp h with h1 | h1
    · injection h1 with h1a h1b
      subst h1b
      exact hm.1.2
    · exact ih hm.2 h1

theorem sizeA_of_mem (m : List (String × Value)) (k : String)
    (vm : List (String × Value)) (h : (k, Value.vmap vm) ∈ m) :
    sizeA vm < sizeA m := by
  induction m with
  | nil => simp at h
  | cons hd rest ih =>
    obtain ⟨k1, v1⟩ := hd
    rcases List.mem_cons.mp h with h1 | h1
    · injection h1 with h1a h1b
      subst h1b
      simp only [sizeA, sizeV]
      omega
    · have := ih h1
      simp [sizeA]
      omega

theorem mergeMaps_self_aux (n : Nat) :
    ∀ m, sizeA m ≤ n → wfA m = true → mergeMaps m m = m := by
  induction n with
  | zero =>
    intro m hs _
    cases m with
    | nil => exact mergeMaps_nil []
    | cons hd rest =>
      obtain ⟨k, v⟩ := hd
      simp only [sizeA] at hs
      omega
  | succ n ih =>
    intro m hs hwf
    apply mergeMaps_absorb
    · intro p hp
      obtain ⟨k, v⟩ := p
      exact lookupA_of_mem_nodup m k v (wfA_nodupKeys m hwf) hp
    · intro p hp vm hvm
      obtain ⟨k, v⟩ := p
      subst hvm
      have hsz : sizeA vm < sizeA m := sizeA_of_mem m k vm hp
      have hwfvm : wfA vm = true := wfV_of_mem m k (Value.vmap vm) hwf hp
      exact ih vm (by omega) hwfvm

/-- C4: the deep merge is idempotent — for every well-formed tree `X`
(every mapping inside it has unique keys, the invariant of parsed
documents), `mergeMaps X X = X`. -/
theorem mergeMaps_idempotent (m : List (String × Value))
    (h : wfA m = true) : mergeMaps m m = m :=
  mergeMaps_self_aux (sizeA m) m (Nat.le_refl _) h

/-- Witness for C4 at a concrete nested tree. -/
theorem mergeMaps_idempotent_witness :
    wfA [("a", Value.vmap [("x", Value.num 1), ("y", Value.num 2)]),
         ("b", Value.str "going-merry")] = true ∧
    mergeMaps
      [("a", Value.vmap [("x", Value.num 1), ("y", Value.num 2)]),
       ("b", Value.str "going-merry")]
      [("a", Value.vmap [("x", Value.num 1), ("y", Value.num 2)]),
       ("b", Value.str "going-merry")] =
      [("a", Value.vmap [("x", Value.num 1), ("y", Value.num 2)]),
       ("b", Value.str "going-merry")] :=
  ⟨rfl, mergeMaps_idempotent _ rfl⟩

theorem chLt_irrefl (a : Char) : chLt a a = false := by
  simp [chLt]

theorem chLt_asymm (a b : Char) (h : chLt a b = true) : chLt b a = false := by
  simp [chLt] at h ⊢
  omega

theorem chLt_trans (a b c : Char) (h1 : chLt a b = true)
    (h2 : chLt b c = true) : chLt a c = true := by
  simp [chLt] at h1 h2 ⊢
  omega

theorem chLt_eq (a b : Char) (h1 : chLt a b = false)
    (h2 : chLt b a = false) : a = b := by
  simp [chLt, Char.toNat] at h1 h2
  exact Char.ext (UInt32.ext (by omega))

theorem lexLtCh_trans (a b c : List Char) (h1 : lexLtCh a b = true)
    (h2 : lexLtCh b c = true) : lexLtCh a c = true := by
  induction a generalizing b c with
  | nil =>
    cases b with
    | nil => simp [lexLtCh] at h1
    | cons y ys =>
      cases c with
      | nil => simp [lexLtCh] at h2
      | cons z zs => simp [lexLtCh]
  | cons x xs ih =>
    cases b with
    | nil => simp [lexLtCh] at h1
    | cons y ys =>
      cases c with
      | nil => simp [lexLtCh] at h2
      | cons z zs =>
        simp only [lexLtCh] at h1 h2 ⊢
        cases cxy : chLt x y with
        | true =>
          cases cyz : chLt y z with
          | true => simp [chLt_trans x y z cxy cyz]
          | false =>
            cases czy : chLt z y with
            | true => simp [cyz, czy] at h2
            | false =>
              have hyz : y = z := chLt_eq y z cyz czy
              subst hyz
              simp [cxy]
        | false =>
          cases cyx : chLt y x with
          | true => simp [cxy, cyx] at h1
          | false =>
            have hxy : x = y := chLt_eq x y cxy cyx
            subst hxy
            simp only [cxy, Bool.false_eq_true, if_false] at h1
            cases cxz : chLt x z with
            | true => simp
            | false =>
              cases czx : chLt z x with
              | true => simp [cxz, czx] at h2
              | false =>
                simp only [cxz, czx, Bool.false_eq_true, if_false] at h2 ⊢
                exact ih ys zs h1 h2

theorem lexLtCh_asymm (a b : List Char) (h : lexLtCh a b = true) :
    lexLtCh b a = false := by
  induction a generalizing b with
  | nil =>
    cases b with
    | nil => simp [lexLtCh] at h
    | cons y ys => simp [lexLtCh]
  | cons x xs ih =>
    cases b with
    | nil => simp [lexLtCh] at h
    | cons y ys =>
      simp only [lexLtCh] at h ⊢
      cases cxy : chLt x y with
      | true => simp [chLt_asymm x y cxy, cxy]
      | false =>
        cases cyx : chLt y x with
        | true => simp [cxy, cyx] at h
        | false =>
          have hxy : x = y := chLt_eq x y cxy cyx
          subst hxy
          simp only [cxy, Bool.false_eq_true, if_false] at h ⊢
          exact ih ys h

theorem lexLtCh_eq (a b : List Char) (h1 : lexLtCh a b = false)
    (h2 : lexLtCh b a = false) : a = b := by
  induction a generalizing b with
  | nil =>
    cases b with
    | nil => rfl
    | cons y ys => simp [lexLtCh] at h1
  | cons x xs ih =>
    cases b with
    | nil => simp [lexLtCh] at h2
    | cons y ys =>
      simp only [lexLtCh] at h1 h2
      cases cxy : chLt x y with
      | true => simp [cxy] at h1
      | false =>
        cases cyx : chLt y x with
        | true => simp [cyx] at h2
        | false =>
          have hxy : x = y := chLt_eq x y cxy cyx
          subst hxy
          simp only [cxy, Bool.false_eq_true, if_false] at h1 h2
          rw [ih ys h1 h2]

theorem strLt_trans (a b c : String) (h1 : strLt a b = true)
    (h2 : strLt b c = true) : strLt a c = true :=
  lexLtCh_trans _ _ _ h1 h2

theorem strLt_asymm (a b : String) (h : strLt a b = true) :
    strLt b a = false :=
  lexLtCh_asymm _ _ h

theorem strLt_eq (a b : String) (h1 : strLt a b = false)
    (h2 : strLt b a = false) : a = b := by
  cases a with
  | mk da =>
    cases b with
    | mk db =>
      rw [lexLtCh_eq da db h1 h2]

theorem strLe_total (a b : String) : strLe a b = true ∨ strLe b a = true := by
  by_cases h : strLt b a = true
  · right
    simp [strLe, strLt_asymm b a h]
  · left
    simp [strLe]
    simp at h
    exact h

theorem strLe_trans (a b c : String) (h1 : strLe a b = true)
    (h2 : strLe b c = true) : strLe a c = true := by
  simp only [strLe, Bool.not_eq_true'] at h1 h2 ⊢
  by_cases hca : strLt c a = true
  · by_cases hab : strLt a b = true
    · have := strLt_trans c a b hca hab
      rw [this] at h2
      exact absurd h2 (by simp)
    · have hab2 : a = b := strLt_eq a b (by simp at hab; exact hab) h1
      subst hab2
      rw [hca] at h2
      exact absurd h2 (by simp)
  · simp at hca
    exact hca

theorem strLt_of_strLe_ne (a b : String) (h1 : strLe a b = true)
    (h2 : a ≠ b) : strLt a b = true := by
  simp only [strLe, Bool.not_eq_true'] at h1
  by_cases h : strLt a b = true
  · exact h
  · exact absurd (strLt_eq a b (by simp at h; exact h) h1) h2

theorem insertBy_perm (le : α → α → Bool) (x : α) (l : List α) :
    (insertBy le x l).Perm (x :: l) := by
  induction l with
  | nil => simp [insertBy]
  | cons y ys ih =>
    cases h : le x y with
    | true => simp [insertBy, h]
    | false =>
      simp only [insertBy, h, Bool.false_eq_true, if_false]
      exact ((ih.cons y).trans (List.Perm.swap x y ys))

theorem sortBy_perm (le : α → α → Bool) (l : List α) :
    (sortBy le l).Perm l := by
  induction l with
  | nil => simp [sortBy]
  | cons x xs ih =>
    exact (insertBy_perm le x (sortBy le xs)).trans (ih.cons x)

theorem mem_sortBy (le : α → α → Bool) (l : List α) (a : α) :
    a ∈ sortBy le l ↔ a ∈ l :=
  (sortBy_perm le l).mem_iff

theorem pairwise_insertBy (le : α → α → Bool)
    (htot : ∀ a b, le a b = true ∨ le b a = true)
    (htrans : ∀ a b c, le a b = true → le b c = true → le a c = true)
    (x : α) (l : List α) (h : List.Pairwise (fun a b => le a b = true) l) :
    List.Pairwise (fun a b => le a b = true) (insertBy le x l) := by
  induction l with
  | nil => simp [insertBy]
  | cons y ys ih =>
    rcases List.pairwise_cons.mp h with ⟨hy, hys⟩
    cases hxy : le x y with
    | true =>
      simp only [insertBy, hxy, if_true]
      refine List.pairwise_cons.mpr ⟨?_, h⟩
      intro z hz
      rcases List.mem_cons.mp hz with hz | hz
      · subst hz; exact hxy
      · exact htrans x y z hxy (hy z hz)
    | false =>
      simp only [insertBy, hxy, Bool.false_eq_true, if_false]
      refine List.pairwise_cons.mpr ⟨?_, ih hys⟩
      intro z hz
      have hz2 : z = x ∨ z ∈ ys := by
        have := (insertBy_perm le x ys).mem_iff.mp hz
        simpa using this
      rcases hz2 with hz2 | hz2
      · rcases htot x y with h1 | h1
        · rw [h1] at hxy
          exact absurd hxy (by simp)
        · rw [hz2]
          exact h1
      · exact hy z hz2

theorem pairwise_sortBy (le : α → α → Bool)
    (htot : ∀ a b, le a b = true ∨ le b a = true)
    (htrans : ∀ a b c, le a b = true → le b c = true → le a c = true)
    (l : List α) :
    List.Pairwise (fun a b => le a b = true) (sortBy le l) := by
  induction l with
  | nil => simp [sortBy]
  | cons x xs ih => exact pairwise_insertBy le htot htrans x (sortBy le xs) ih

theorem wfT_of_mem_children (cs : List (String × FSTree))
    (h : wfChildren cs = true) (n : String) (c : FSTree)
    (hm : (n, c) ∈ cs) : wfT c = true := by
  induction cs with
  | nil => simp at hm
  | cons hd rest ih =>
    obtain ⟨n1, t1⟩ := hd
    simp only [wfChildren, Bool.and_eq_true] at h
    rcases List.mem_cons.mp hm with h1 | h1
    · injection h1 with h1a h1b
      subst h1b
      exact h.1
    · exact ih h.2 h1

theorem sizeT_of_mem_children (cs : List (String × FSTree)) (n : String)
    (c : FSTree) (hm : (n, c) ∈ cs) : sizeT c ≤ sizeC cs := by
  induction cs with
  | nil => simp at hm
  | cons hd rest ih =>
    obtain ⟨n1, t1⟩ := hd
    rcases List.mem_cons.mp hm with h1 | h1
    · injection h1 with h1a h1b
      subst h1b
      simp only [sizeC]
      omega
    · have := ih h1
      simp only [sizeC]
      omega

theorem mapFst_walkChildren (cs : List (String × FSTree)) :
    (walkChildren cs).map Prod.fst = cs.map Prod.fst := by
  induction cs with
  | nil => simp [walkChildren]
  | cons hd rest ih =>
    obtain ⟨n, t⟩ := hd
    simp [walkChildren, ih]

theorem mem_walkChildren (cs : List (String × FSTree))
    (q : String × List (List String × Bool)) :
    q ∈ walkChildren cs ↔
      ∃ n t, (n, t) ∈ cs ∧
        q = (n, (walkVisit t).map (fun p => (n :: p.1, p.2))) := by
  induction cs with
  | nil => simp [walkChildren]
  | cons hd rest ih =>
    obtain ⟨n0, t0⟩ := hd
    simp only [walkChildren, List.mem_cons, ih]
    constructor
    · rintro (h | ⟨n, t, hm, rfl⟩)
      · exact ⟨n0, t0, Or.inl rfl, h⟩
      · exact ⟨n, t, Or.inr hm, rfl⟩
    · rintro ⟨n, t, hm, rfl⟩
      rcases hm with hm | hm
      · injection hm with hma hmb
        subst hma
        subst hmb
        exact Or.inl rfl
      · exact Or.inr ⟨n, t, hm, rfl⟩

theorem mem_flattenSorted (l : List (String × List (List String × Bool)))
    (x : List String × Bool) :
    x ∈ flattenSorted l ↔ ∃ q, q ∈ l ∧ x ∈ q.2 := by
  simp only [flattenSorted, List.mem_flatten, List.mem_map]
  constructor
  · rintro ⟨l1, ⟨q, hq, rfl⟩, hx⟩
    exact ⟨q, (mem_sortBy _ _ _).mp hq, hx⟩
  · rintro ⟨q, hq, hx⟩
    exact ⟨q.2, ⟨q, (mem_sortBy _ _ _).mpr hq, rfl⟩, hx⟩

theorem childLookup_mem (cs : List (String × FSTree)) (n : String)
    (c : FSTree) (h : childLookup cs n = some c) : (n, c) ∈ cs := by
  induction cs with
  | nil => simp [childLookup] at h
  | cons hd rest ih =>
    obtain ⟨n1, t1⟩ := hd
    by_cases h1 : n1 = n
    · subst h1
      simp only [childLookup, if_pos rfl] at h
      injection h with h
      subst h
      exact List.mem_cons_self _ _
    · simp only [childLookup, if_neg h1] at h
      exact List.mem_cons_of_mem _ (ih h)

theorem childLookup_of_mem (cs : List (String × FSTree)) (n : String)
    (c : FSTree) (hnd : nodupNames cs = true) (hm : (n, c) ∈ cs) :
    childLookup cs n = some c := by
  induction cs with
  | nil => simp at hm
  | cons hd rest ih =>
    obtain ⟨n1, t1⟩ := hd
    simp only [nodupNames, Bool.and_eq_true, Bool.not_eq_true'] at hnd
    rcases List.mem_cons.mp hm with h1 | h1
    · injection h1 with h1a h1b
      subst h1a
      subst h1b
      simp [childLookup]
    · have hne : ¬ n1 = n := by
        intro he
        subst he
        have : n1 ∈ namesOf rest := by
          simp only [namesOf, List.mem_map]
          exact ⟨(n1, c), h1, rfl⟩
        rw [← memS_iff] at this
        rw [this] at hnd
        exact Bool.false_ne_true hnd.1.symm
      simp [childLookup, hne, ih hnd.2 h1]

theorem nodup_namesOf (cs : List (String × FSTree))
    (h : nodupNames cs = true) : (cs.map Prod.fst).Nodup := by
  induction cs with
  | nil => simp
  | cons hd rest ih =>
    obtain ⟨n, t⟩ := hd
    simp only [nodupKeys, nodupNames, Bool.and_eq_true, Bool.not_eq_true'] at h
    simp only [List.map_cons, List.nodup_cons]
    refine ⟨?_, ih h.2⟩
    intro hmem
    have : memS n (namesOf rest) = true := (memS_iff _ _).mpr hmem
    rw [this] at h
    exact Bool.false_ne_true h.1.symm

/-- Characterization of the walk: an entry is visited exactly when its
component path resolves under the root, and the reported flag is its
directory flag. -/
theorem mem_walkVisit_aux (N : Nat) :
    ∀ t, sizeT t ≤ N → wfT t = true → ∀ cs b,
      ((cs, b) ∈ walkVisit t ↔ ∃ e, entryAt t cs = some e ∧ isDirT e = b) := by
  induction N with
  | zero =>
    intro t hs
    cases t with
    | file => simp [sizeT] at hs
    | dir cs0 => simp [sizeT] at hs
  | succ N ih =>
    intro t hs hwf cs b
    cases t with
    | file =>
      cases cs with
      | nil => simp [walkVisit, entryAt, isDirT, eq_comm]
      | cons n rest => simp [walkVisit, entryAt]
    | dir cs0 =>
      simp only [wfT, Bool.and_eq_true] at hwf
      simp only [walkVisit, List.mem_cons, mem_flattenSorted]
      constructor
      · rintro (h | ⟨q, hq, hx⟩)
        · injection h with h1 h2
          subst h1
          subst h2
          exact ⟨FSTree.dir cs0, rfl, rfl⟩
        · rcases (mem_walkChildren cs0 q).mp hq with ⟨n, c, hmem, rfl⟩
          simp only [List.mem_map] at hx
          rcases hx with ⟨p, hp, hpe⟩
          injection hpe with hpe1 hpe2
          subst hpe2
          have hsz : sizeT c ≤ N := by
            have h1 := sizeT_of_mem_children cs0 n c hmem
            simp only [sizeT] at hs
            omega
          have hwfc : wfT c = true :=
            wfT_of_mem_children cs0 hwf.2 n c hmem
          have hrec := (ih c hsz hwfc p.1 p.2).mp (by
            cases p with
            | mk p1 p2 => exact hp)
          rcases hrec with ⟨e, he1, he2⟩
          refine ⟨e, ?_, he2⟩
          rw [← hpe1]
          simp only [entryAt, childLookup_of_mem cs0 n c hwf.1 hmem]
          exact he1
      · rintro ⟨e, he1, he2⟩
        cases cs with
        | nil =>
          simp only [entryAt, Option.some.injEq] at he1
          subst he1
          left
          rw [← he2]
          rfl
        | cons n rest =>
          simp only [entryAt] at he1
          cases hcl : childLookup cs0 n with
          | none => rw [hcl] at he1; simp at he1
          | some c =>
            rw [hcl] at he1
            have hmem : (n, c) ∈ cs0 := childLookup_mem cs0 n c hcl
            have hsz : sizeT c ≤ N := by
              have h1 := sizeT_of_mem_children cs0 n c hmem
              simp only [sizeT] at hs
              omega
            have hwfc : wfT c = true :=
              wfT_of_mem_children cs0 hwf.2 n c hmem
            have hrec := (ih c hsz hwfc rest b).mpr ⟨e, he1, he2⟩
            right
            refine ⟨(n, (walkVisit c).map (fun p => (n :: p.1, p.2))), ?_, ?_⟩
            · exact (mem_walkChildren cs0 _).mpr ⟨n, c, hmem, rfl⟩
            · simp only [List.mem_map]
              exact ⟨(rest, b), hrec, rfl⟩

/-- Walk membership for well-formed trees. -/
theorem mem_walkVisit (t : FSTree) (h : wfT t = true) (cs : List String)
    (b : Bool) :
    (cs, b) ∈ walkVisit t ↔ ∃ e, entryAt t cs = some e ∧ isDirT e = b :=
  mem_walkVisit_aux (sizeT t) t (Nat.le_refl _) h cs b

theorem pairwise_walkVisit_aux (N : Nat) :
    ∀ t, sizeT t ≤ N → wfT t = true →
      (walkVisit t).Pairwise (fun p q => pathLt p.1 q.1) := by
  induction N with
  | zero =>
    intro t hs
    cases t with
    | file => simp [sizeT] at hs
    | dir cs0 => simp [sizeT] at hs
  | succ N ih =>
    intro t hs hwf
    cases t with
    | file => simp [walkVisit]
    | dir cs0 =>
      simp only [wfT, Bool.and_eq_true] at hwf
      simp only [walkVisit]
      refine List.pairwise_cons.mpr ⟨?_, ?_⟩
      · intro y hy
        rcases (mem_flattenSorted _ y).mp hy with ⟨q, hq, hx⟩
        rcases (mem_walkChildren cs0 q).mp hq with ⟨n, c, hmem, rfl⟩
        simp only [List.mem_map] at hx
        rcases hx with ⟨p, hp, rfl⟩
        exact List.Lex.nil
      · rw [flattenSorted]
        apply List.pairwise_flatten.mpr
        constructor
        · intro l1 hl1
          simp only [List.mem_map] at hl1
          rcases hl1 with ⟨q, hq, rfl⟩
          have hq2 := (mem_sortBy _ _ _).mp hq
          rcases (mem_walkChildren cs0 q).mp hq2 with ⟨n, c, hmem, rfl⟩
          rw [List.pairwise_map]
          have hsz : sizeT c ≤ N := by
            have h1 := sizeT_of_mem_children cs0 n c hmem
            simp only [sizeT] at hs
            omega
          have hrec := ih c hsz (wfT_of_mem_children cs0 hwf.2 n c hmem)
          exact hrec.imp (fun h => List.Lex.cons h)
        · rw [List.pairwise_map]
          have hsorted :
              (sortBy (fun a b => strLe a.1 b.1) (walkChildren cs0)).Pairwise
                (fun q1 q2 => strLe q1.1 q2.1 = true) := by
            apply pairwise_sortBy
            · intro a b
              exact strLe_total a.1 b.1
            · intro a b c h1 h2
              exact strLe_trans a.1 b.1 c.1 h1 h2
          have hnodup :
              ((sortBy (fun a b => strLe a.1 b.1) (walkChildren cs0)).map
                Prod.fst).Nodup := by
            have hperm :=
              (sortBy_perm (fun a b => strLe a.1 b.1) (walkChildren cs0)).map
                Prod.fst
            rw [hperm.nodup_iff, mapFst_walkChildren]
            exact nodup_namesOf cs0 hwf.1
          have hne :
              (sortBy (fun a b => strLe a.1 b.1) (walkChildren cs0)).Pairwise
                (fun q1 q2 => q1.1 ≠ q2.1) :=
            List.pairwise_map.mp hnodup
          have hcomb := hsorted.and hne
          apply hcomb.imp_of_mem
          intro q1 q2 hq1 hq2 hcond
          rcases (mem_walkChildren cs0 _).mp ((mem_sortBy _ _ _).mp hq1)
            with ⟨n1, c1, hm1, rfl⟩
          rcases (mem_walkChildren cs0 _).mp ((mem_sortBy _ _ _).mp hq2)
            with ⟨n2, c2, hm2, rfl⟩
          intro x hx y hy
          simp only [List.mem_map] at hx hy
          rcases hx with ⟨px, hpx, rfl⟩
          rcases hy with ⟨py, hpy, rfl⟩
          exact List.Lex.rel (strLt_of_strLe_ne n1 n2 hcond.1 hcond.2)

/-- Walk order for well-formed trees: entries are reported in strictly
increasing component-lexicographic order. -/
theorem pairwise_walkVisit (t : FSTree) (h : wfT t = true) :
    (walkVisit t).Pairwise (fun p q => pathLt p.1 q.1) :=
  pairwise_walkVisit_aux (sizeT t) t (Nat.le_refl _) h

/-- C3 counterexample, at the concrete tree `foo` containing a
subdirectory `b` (holding `a.yaml`) and a file `b.yaml`:
the current lister reports `foo/b/a.yaml` before `foo/b.yaml` even
though `foo/b.yaml` is strictly smaller in lexicographic string order
(so the output is not ordered lexicographically as strings), and the
previous-revision lister includes `foo` itself, a path that names a
directory entry (it lacks the non-directory filter). -/
theorem listing_claim_counterexample :
    listFilesRecursiveT "foo" ""
        (FSTree.dir [("b", FSTree.dir [("a.yaml", FSTree.file)]),
          ("b.yaml", FSTree.file)]) =
      ["foo/b/a.yaml", "foo/b.yaml"] ∧
    strLt "foo/b.yaml" "foo/b/a.yaml" = true ∧
    recursiveListOfFilesT "foo" ""
        (FSTree.dir [("b", FSTree.dir [("a.yaml", FSTree.file)]),
          ("b.yaml", FSTree.file)]) =
      ["foo", "foo/b", "foo/b/a.yaml", "foo/b.yaml"] ∧
    entryAt (FSTree.dir [("b", FSTree.dir [("a.yaml", FSTree.file)]),
        ("b.yaml", FSTree.file)]) [] =
      some (FSTree.dir [("b", FSTree.dir [("a.yaml", FSTree.file)]),
        ("b.yaml", FSTree.file)]) ∧
    isDirT (FSTree.dir [("b", FSTree.dir [("a.yaml", FSTree.file)]),
        ("b.yaml", FSTree.file)]) = true :=
  ⟨rfl, rfl, rfl, rfl, rfl⟩

/-- C3 (amended): for every well-formed directory tree, (1) the current
lister `listFilesRecursiveT` contains a path iff it names a
non-directory entry under the root passing the extension filter; (2) its
output is the in-order image of the walk entries, which are strictly
sorted in the component-wise lexicographic order (not the string
lexicographic order); and (3) the previous-revision lister
`recursiveListOfFilesT` applies the same extension filter but omits the
non-directory condition, so it also lists directory entries. -/
theorem listing_spec (d ext : String) (t : FSTree) (h : wfT t = true) :
    (∀ p, p ∈ listFilesRecursiveT d ext t ↔
      ∃ cs e, entryAt t cs = some e ∧ isDirT e = false ∧
        p = joinPath (d :: cs) ∧ (ext = "" ∨ extOf p = ext)) ∧
    (walkFiles d ext t).Pairwise (fun p q => pathLt p.1 q.1) ∧
    listFilesRecursiveT d ext t =
      (walkFiles d ext t).map (fun p => joinPath (d :: p.1)) ∧
    (∀ p, p ∈ recursiveListOfFilesT d ext t ↔
      ∃ cs e, entryAt t cs = some e ∧
        p = joinPath (d :: cs) ∧ (ext = "" ∨ extOf p = ext)) := by
  refine ⟨?_, ?_, rfl, ?_⟩
  · intro p
    simp only [listFilesRecursiveT, walkFiles, List.mem_map, List.mem_filter]
    constructor
    · rintro ⟨⟨cs, b⟩, ⟨hmem, hf⟩, rfl⟩
      simp only [Bool.and_eq_true, Bool.not_eq_true'] at hf
      obtain ⟨hb, hext⟩ := hf
      subst hb
      rcases (mem_walkVisit t h cs false).mp hmem with ⟨e, he1, he2⟩
      refine ⟨cs, e, he1, he2, rfl, ?_⟩
      simpa using hext
    · rintro ⟨cs, e, he1, he2, rfl, hext⟩
      refine ⟨(cs, false), ⟨?_, ?_⟩, rfl⟩
      · exact (mem_walkVisit t h cs false).mpr ⟨e, he1, he2⟩
      · simp only [Bool.and_eq_true, Bool.not_eq_true']
        exact ⟨trivial, by simpa using hext⟩
  · exact (pairwise_walkVisit t h).sublist (List.filter_sublist _)
  · intro p
    simp only [recursiveListOfFilesT, List.mem_map, List.mem_filter]
    constructor
    · rintro ⟨⟨cs, b⟩, ⟨hmem, hf⟩, rfl⟩
      rcases (mem_walkVisit t h cs b).mp hmem with ⟨e, he1, he2⟩
      refine ⟨cs, e, he1, rfl, ?_⟩
      simpa using hf
    · rintro ⟨cs, e, he1, rfl, hext⟩
      refine ⟨(cs, isDirT e), ⟨?_, ?_⟩, rfl⟩
      · exact (mem_walkVisit t h cs (isDirT e)).mpr ⟨e, he1, rfl⟩
      · simpa using hext

/-- Witness for the amended C3, at the spec's own example tree: with the
extension filter `.yaml`, the nested file `foo/bar/bar.yaml` is listed. -/
theorem listing_spec_witness :
    wfT (FSTree.dir [("bar", FSTree.dir [("bar.yaml", FSTree.file)]),
      ("baz", FSTree.dir [("baz.yaml", FSTree.file),
        ("qux.yaml", FSTree.file)]),
      ("baz.txt", FSTree.file), ("foo.yaml", FSTree.file)]) = true ∧
    "foo/bar/bar.yaml" ∈ listFilesRecursiveT "foo" ".yaml"
      (FSTree.dir [("bar", FSTree.dir [("bar.yaml", FSTree.file)]),
        ("baz", FSTree.dir [("baz.yaml", FSTree.file),
          ("qux.yaml", FSTree.file)]),
        ("baz.txt", FSTree.file), ("foo.yaml", FSTree.file)]) :=
  ⟨rfl,
    ((listing_spec "foo" ".yaml"
        (FSTree.dir [("bar", FSTree.dir [("bar.yaml", FSTree.file)]),
          ("baz", FSTree.dir [("baz.yaml", FSTree.file),
            ("qux.yaml", FSTree.file)]),
          ("baz.txt", FSTree.file), ("foo.yaml", FSTree.file)]) rfl).1 _).mpr
      ⟨["bar", "bar.yaml"], FSTree.file, rfl, rfl, rfl, Or.inr rfl⟩⟩

/-- C9: with all seven tiers empty, `MergeValues` returns the empty tree
and no error — for every environment, so no fetch, listing or parse
result can influence the outcome. -/
theorem mergeValues_empty_options (env : Env) :
    MergeValues ⟨[], [], [], [], [], [], []⟩ env = (some [], none) := rfl

/-- Error propagation of the directories tier: a directory whose root
does not resolve makes the whole collection fail. -/
theorem collectDirFiles_missing (dirs : List String) (env : Env)
    (d : String) (hd : d ∈ dirs) (hroot : env.fsRoot d = none) :
    ∃ e, collectDirFiles dirs env = .error e := by
  induction dirs with
  | nil => simp at hd
  | cons d0 rest ih =>
    rcases List.mem_cons.mp hd with h | h
    · subst h
      refine ⟨.traversal d, ?_⟩
      simp [collectDirFiles, listFilesRecursive, hroot]
    · cases hl : listFilesRecursive d0 ".yaml" env with
      | error e => exact ⟨e, by simp [collectDirFiles, hl]⟩
      | ok files =>
        rcases ih h with ⟨e, he⟩
        exact ⟨e, by simp [collectDirFiles, hl, he]⟩

/-- C6: `MergeValues` never returns a partial accumulator on failure:
every outcome is either a tree with no error or the nil tree with an
error; and a missing directory reference makes the whole call return
the nil tree with an error. -/
theorem mergeValues_nil_on_error (opts : Options) (env : Env) :
    ((∃ t, MergeValues opts env = (some t, none)) ∨
      (∃ e, MergeValues opts env = (none, some e))) ∧
    (∀ d, d ∈ opts.ValuesDirectories → env.fsRoot d = none →
      ∃ e, MergeValues opts env = (none, some e)) := by
  constructor
  · unfold MergeValues
    repeat' split
    all_goals first
      | exact Or.inl ⟨_, rfl⟩
      | exact Or.inr ⟨_, rfl⟩
  · intro d hd hroot
    rcases collectDirFiles_missing opts.ValuesDirectories env d hd hroot
      with ⟨e, he⟩
    exact ⟨e, by simp [MergeValues, he]⟩

/-- Witness for C6 at a concrete missing directory. -/
theorem mergeValues_nil_on_error_witness :
    "nope" ∈ ["nope"] ∧ demoEnv.fsRoot "nope" = none ∧
    ∃ e, MergeValues ⟨["nope"], [], [], [], [], [], []⟩ demoEnv =
      (none, some e) :=
  ⟨List.mem_singleton.mpr rfl, rfl,
    (mergeValues_nil_on_error ⟨["nope"], [], [], [], [], [], []⟩ demoEnv).2
      "nope" (List.mem_singleton.mpr rfl) rfl⟩

/-- C7: the byte-fetch resolution order — standard-input sentinel first;
otherwise the reference must parse as a locator (a parse failure fails
the fetch); a getter registered for the parsed scheme is used; and with
no getter for the scheme the reference is read as a local file. -/
theorem readFile_resolution (filePath : String) (env : Env) :
    (trimS filePath = "-" → readFile filePath env = env.stdin) ∧
    (trimS filePath ≠ "-" → env.urlParse filePath = none →
      readFile filePath env = .error (.urlParse filePath)) ∧
    (∀ u g, trimS filePath ≠ "-" → env.urlParse filePath = some u →
      env.byScheme u.scheme = some g →
      readFile filePath env = g.get filePath) ∧
    (∀ u, trimS filePath ≠ "-" → env.urlParse filePath = some u →
      env.byScheme u.scheme = none →
      readFile filePath env = env.osReadFile filePath) := by
  refine ⟨?_, ?_, ?_, ?_⟩
  · intro h
    simp [readFile, h]
  · intro h1 h2
    simp [readFile, h1, h2]
  · intro u g h1 h2 h3
    simp [readFile, h1, h2, h3]
  · intro u h1 h2 h3
    simp [readFile, h1, h2, h3]

/-- Witness for C7: the sentinel reads standard input, and a plain path
with no getter registered for its (empty) scheme reads the local file. -/
theorem readFile_resolution_witness :
    (trimS "-" = "-" ∧ readFile "-" demoEnv = demoEnv.stdin) ∧
    (trimS "f1.yaml" ≠ "-" ∧ demoEnv.urlParse "f1.yaml" = some ⟨""⟩ ∧
      demoEnv.byScheme "" = none ∧
      readFile "f1.yaml" demoEnv = demoEnv.osReadFile "f1.yaml") :=
  ⟨⟨rfl, (readFile_resolution "-" demoEnv).1 rfl⟩,
   ⟨by decide, rfl, rfl,
     (readFile_resolution "f1.yaml" demoEnv).2.2.2 ⟨""⟩ (by decide) rfl rfl⟩⟩

/-- C5: per-entry dichotomy of the raw-structured-payload tier — on the
pipeline, an entry whose trimmed text starts with the opening brace is
parsed whole as a mapping and deep-merged, any other entry is one flat
assignment applied to the accumulator, and a parse failure in either
branch yields the error naming the literal entry; and the loop law for
an arbitrary accumulator. -/
theorem mergeValues_json_dichotomy (env : Env) (e : String) :
    MergeValues ⟨[], [], [], [], [], [e], []⟩ env =
      (if startsWithBrace (trimS e) then
        match env.parseJSONObject (trimS e) with
        | some m => (some (mergeMaps [] m), none)
        | none => (none, some (Err.formatJSONObject e))
      else
        match env.parseJSONAssign e with
        | some pv => (some (setPath pv.1 pv.2 []), none)
        | none => (none, some (Err.formatJSONAssign e))) ∧
    (∀ base rest,
      jsonLoop env (e :: rest) base =
        if startsWithBrace (trimS e) then
          match env.parseJSONObject (trimS e) with
          | some m => jsonLoop env rest (mergeMaps base m)
          | none => .error (.formatJSONObject e)
        else
          match env.parseJSONAssign e with
          | some pv => jsonLoop env rest (setPath pv.1 pv.2 base)
          | none => .error (.formatJSONAssign e)) := by
  constructor
  · cases hb : startsWithBrace (trimS e) with
    | true =>
      cases hp : env.parseJSONObject (trimS e) with
      | some m =>
        simp [MergeValues, collectDirFiles, mergeFilesLoop, jsonLoop,
          assignLoop, fileLoop, hb, hp]
      | none =>
        simp [MergeValues, collectDirFiles, mergeFilesLoop, jsonLoop,
          assignLoop, fileLoop, hb, hp]
    | false =>
      cases hp : env.parseJSONAssign e with
      | some pv =>
        simp [MergeValues, collectDirFiles, mergeFilesLoop, jsonLoop,
          assignLoop, fileLoop, hb, hp]
      | none =>
        simp [MergeValues, collectDirFiles, mergeFilesLoop, jsonLoop,
          assignLoop, fileLoop, hb, hp]
  · intro base rest
    cases hb : startsWithBrace (trimS e) with
    | true =>
      cases hp : env.parseJSONObject (trimS e) with
      | some m => simp [jsonLoop, hb, hp]
      | none => simp [jsonLoop, hb, hp]
    | false =>
      cases hp : env.parseJSONAssign e with
      | some pv => simp [jsonLoop, hb, hp]
      | none => simp [jsonLoop, hb, hp]

/-- Membership in a `.yaml`-filtered listing forces the extension. -/
theorem ext_of_mem_listFilesRecursiveT (d : String) (t : FSTree)
    (p : String) (h : p ∈ listFilesRecursiveT d ".yaml" t) :
    extOf p = ".yaml" := by
  simp only [listFilesRecursiveT, walkFiles, List.mem_map,
    List.mem_filter] at h
  rcases h with ⟨pr, ⟨hmem, hf⟩, rfl⟩
  simp only [Bool.and_eq_true] at hf
  have h2 := hf.2
  simpa using h2

/-- C10: the directories tier admits only `.yaml` files — every path in
the collected working list has extension exactly `.yaml`, and the
collection succeeds whenever every directory root resolves, whatever
other files (e.g. `.yml`) the directories contain. -/
theorem dirTier_only_yaml (dirs : List String) (env : Env) :
    (∀ files, collectDirFiles dirs env = .ok files →
      ∀ p, p ∈ files → extOf p = ".yaml") ∧
    ((∀ d, d ∈ dirs → env.fsRoot d ≠ none) →
      ∃ files, collectDirFiles dirs env = .ok files) := by
  constructor
  · induction dirs with
    | nil =>
      intro files h p hp
      simp only [collectDirFiles] at h
      injection h with h
      subst h
      simp at hp
    | cons d0 rest ih =>
      intro files h p hp
      simp only [collectDirFiles] at h
      cases hl : listFilesRecursive d0 ".yaml" env with
      | error e => rw [hl] at h; exact absurd h (by simp)
      | ok fs0 =>
        rw [hl] at h
        cases hc : collectDirFiles rest env with
        | error e => rw [hc] at h; exact absurd h (by simp)
        | ok more =>
          rw [hc] at h
          injection h with h
          subst h
          rcases List.mem_append.mp hp with hp | hp
          · simp only [listFilesRecursive] at hl
            cases hroot : env.fsRoot d0 with
            | none => rw [hroot] at hl; exact absurd hl (by simp)
            | some t =>
              rw [hroot] at hl
              injection hl with hl
              subst hl
              exact ext_of_mem_listFilesRecursiveT d0 t p hp
          · exact ih more hc p hp
  · induction dirs with
    | nil =>
      intro _
      exact ⟨[], rfl⟩
    | cons d0 rest ih =>
      intro hroots
      cases hroot : env.fsRoot d0 with
      | none =>
        exact absurd hroot (hroots d0 (List.mem_cons_self _ _))
      | some t =>
        rcases ih (fun d hd => hroots d (List.mem_cons_of_mem _ hd))
          with ⟨more, hmore⟩
        refine ⟨listFilesRecursiveT d0 ".yaml" t ++ more, ?_⟩
        simp [collectDirFiles, listFilesRecursive, hroot, hmore]

/-- Witness for C10: the directory `foo` holds `a.yml` and `b.yaml`;
only `foo/b.yaml` is collected, with no error, and its extension is
`.yaml`. -/
theorem dirTier_only_yaml_witness :
    collectDirFiles ["foo"] demoEnv = .ok ["foo/b.yaml"] ∧
    extOf "foo/b.yaml" = ".yaml" ∧
    ("foo/a.yml" ∈ ["foo/b.yaml"] → False) :=
  ⟨rfl,
    (dirTier_only_yaml ["foo"] demoEnv).1 ["foo/b.yaml"] rfl "foo/b.yaml"
      (List.mem_singleton.mpr rfl),
    by decide⟩

theorem mergeFilesLoop_eq (env : Env) (files : List String)
    (base : List (String × Value)) :
    mergeFilesLoop env files base =
      match planFiles env files with
      | .error e => .error e
      | .ok ss => .ok (ss.foldl applyStep base) := by
  induction files generalizing base with
  | nil => simp [mergeFilesLoop, planFiles]
  | cons f rest ih =>
    simp only [mergeFilesLoop, planFiles]
    cases hr : readFile f env with
    | error e => simp
    | ok raw =>
      cases hl : env.loadValues raw with
      | none => simp [hl]
      | some m =>
        cases hp : planFiles env rest with
        | error e => simp [hl, hp, ih]
        | ok ss => simp [hl, hp, ih, applyStep]

theorem jsonLoop_eq (env : Env) (vals : List String)
    (base : List (String × Value)) :
    jsonLoop env vals base =
      match planJson env vals with
      | .error e => .error e
      | .ok ss => .ok (ss.foldl applyStep base) := by
  induction vals generalizing base with
  | nil => simp [jsonLoop, planJson]
  | cons v rest ih =>
    simp only [jsonLoop, planJson]
    cases hb : startsWithBrace (trimS v) with
    | true =>
      simp only [hb, if_true]
      cases ho : env.parseJSONObject (trimS v) with
      | none => simp [ho]
      | some m =>
        cases hp : planJson env rest with
        | error e => simp [ho, hp, ih]
        | ok ss => simp [ho, hp, ih, applyStep]
    | false =>
      simp only [hb, Bool.false_eq_true, if_false]
      cases ho : env.parseJSONAssign v with
      | none => simp [ho]
      | some pv =>
        cases hp : planJson env rest with
        | error e => simp [ho, hp, ih]
        | ok ss => simp [ho, hp, ih, applyStep]

theorem assignLoop_eq (parse : String → Option (List String × Value))
    (mkErr : String → Err) (vals : List String)
    (base : List (String × Value)) :
    assignLoop parse mkErr vals base =
      match planAssign parse mkErr vals with
      | .error e => .error e
      | .ok ss => .ok (ss.foldl applyStep base) := by
  induction vals generalizing base with
  | nil => simp [assignLoop, planAssign]
  | cons v rest ih =>
    simp only [assignLoop, planAssign]
    cases ho : parse v with
    | none => simp
    | some pv =>
      cases hp : planAssign parse mkErr rest with
      | error e => simp [hp, ih]
      | ok ss => simp [hp, ih, applyStep]

theorem fileLoop_eq (env : Env) (vals : List String)
    (base : List (String × Value)) :
    fileLoop env vals base =
      match planFile env vals with
      | .error e => .error e
      | .ok ss => .ok (ss.foldl applyStep base) := by
  induction vals generalizing base with
  | nil => simp [fileLoop, planFile]
  | cons v rest ih =>
    simp only [fileLoop, planFile]
    cases ho : env.parseSetFile v with
    | none => simp
    | some pr =>
      cases hr : readFile pr.2 env with
      | error e => simp [hr]
      | ok raw =>
        cases hp : planFile env rest with
        | error e => simp [hr, hp, ih]
        | ok ss => simp [hr, hp, ih, applyStep]

/-- Refinement: `MergeValues` equals the fold of the rank-ordered plan
over the empty accumulator. -/
theorem MergeValues_eq_plan (opts : Options) (env : Env) :
    MergeValues opts env =
      match plan opts env with
      | .error e => (none, some e)
      | .ok ss => (some (ss.foldl applyStep []), none) := by
  simp only [MergeValues, plan, mergeFilesLoop_eq, jsonLoop_eq,
    assignLoop_eq, fileLoop_eq]
  cases h0 : collectDirFiles opts.ValuesDirectories env with
  | error e => rfl
  | ok dirFiles =>
    dsimp only
    cases h1 : planFiles env (dirFiles ++ opts.ValueFiles) with
    | error e => rfl
    | ok s1 =>
      dsimp only
      cases h2 : planJson env opts.JSONValues with
      | error e => rfl
      | ok s2 =>
        dsimp only
        cases h3 : planAssign env.parseSet Err.setData opts.Values with
        | error e => rfl
        | ok s3 =>
          dsimp only
          cases h4 : planAssign env.parseSetString Err.setString
              opts.StringValues with
          | error e => rfl
          | ok s4 =>
            dsimp only
            cases h5 : planFile env opts.FileValues with
            | error e => rfl
            | ok s5 =>
              dsimp only
              cases h6 : planAssign env.parseSetLiteral Err.setLiteral
                  opts.LiteralValues with
              | error e => rfl
              | ok s6 => simp [List.foldl_append]

theorem lookupA_setPath_head_ne (p : List String) (v : Value)
    (t : List (String × Value)) (k : String)
    (h : stepTouches (.assign p v) k = false) :
    lookupA (setPath p v t) k = lookupA t k := by
  cases p with
  | nil => rfl
  | cons k1 rest =>
    simp only [stepTouches, beq_eq_false_iff_ne, ne_eq] at h
    cases rest with
    | nil => exact lookupA_setA_ne t k1 k v (Ne.symm h)
    | cons k2 r2 => exact lookupA_setA_ne t k1 k _ (Ne.symm h)

theorem lookupA_applyStep_not_touches (s : Step)
    (t : List (String × Value)) (k : String)
    (h : stepTouches s k = false) :
    lookupA (applyStep t s) k = lookupA t k := by
  cases s with
  | mergeDoc m =>
    simp only [stepTouches] at h
    apply mergeMaps_lookup_of_not_mem
    intro hmem
    rw [(memS_iff k (keysOf m)).mpr hmem] at h
    exact Bool.false_ne_true h.symm
  | assign p v => exact lookupA_setPath_head_ne p v t k h

theorem lookupA_applyStep_topWrite (s : Step) (t : List (String × Value))
    (k : String) (v : Value) (hw : topWrite s k = some v)
    (hnm : asMap v = none) (hnd : stepNodupB s = true) :
    lookupA (applyStep t s) k = some v := by
  cases s with
  | mergeDoc m =>
    simp only [topWrite] at hw
    simp only [stepNodupB] at hnd
    simp only [applyStep]
    rw [mergeMaps_lookup_char t m hnd k, hw]
    cases hb : (lookupA t k).bind asMap <;> simp [hnm]
  | assign p v1 =>
    simp only [topWrite] at hw
    cases p with
    | nil => simp at hw
    | cons k1 rest =>
      cases rest with
      | nil =>
        by_cases hk : k1 = k
        · subst hk
          simp only [if_pos rfl, Option.some.injEq] at hw
          rw [← hw]
          simp only [applyStep, setPath]
          exact lookupA_setA_self t k1 v1
        · simp [if_neg hk] at hw
      | cons k2 r2 => simp at hw

theorem foldl_preserve_top (post : List Step) (t : List (String × Value))
    (k : String) (v : Value) (hv : lookupA t k = some v)
    (hpost : ∀ s, s ∈ post → stepTouches s k = false) :
    lookupA (post.foldl applyStep t) k = some v := by
  induction post generalizing t with
  | nil => exact hv
  | cons s rest ih =>
    simp only [List.foldl_cons]
    apply ih
    · rw [lookupA_applyStep_not_touches s t k
        (hpost s (List.mem_cons_self _ _))]
      exact hv
    · intro s2 hs2
      exact hpost s2 (List.mem_cons_of_mem _ hs2)

/-- C1: `MergeValues` refines the rank-ordered plan — it equals the fold
of the tiers' steps in the order directories, named documents, raw
structured payloads, inline assignments, string assignments,
file-content assignments, literal assignments — and precedence is
last-writer-wins: when a step directly writes top-level key `k` with a
non-mapping value and no later step of any tier touches `k`, the
returned tree holds exactly that step's value at `k`. -/
theorem mergeValues_precedence (opts : Options) (env : Env) :
    MergeValues opts env =
      (match plan opts env with
       | .error e => (none, some e)
       | .ok ss => (some (ss.foldl applyStep []), none)) ∧
    (∀ pre s post k v,
      plan opts env = .ok (pre ++ s :: post) →
      topWrite s k = some v → asMap v = none → stepNodupB s = true →
      (∀ s2, s2 ∈ post → stepTouches s2 k = false) →
      ∃ t, MergeValues opts env = (some t, none) ∧
        lookupA t k = some v) := by
  have hplan := MergeValues_eq_plan opts env
  refine ⟨hplan, ?_⟩
  intro pre s post k v hp hw hnm hnd hpost
  rw [hplan, hp]
  refine ⟨(pre ++ s :: post).foldl applyStep [], rfl, ?_⟩
  rw [List.foldl_append, List.foldl_cons]
  exact foldl_preserve_top post _ k v
    (lookupA_applyStep_topWrite s _ k v hw hnm hnd) hpost

/-- Witness for C1, the spec's precedence example end to end: the
directory tier contributes captain luffy, the later named-document tier
contributes captain usopp, and usopp wins in the returned tree. -/
theorem mergeValues_precedence_witness :
    ∃ t, MergeValues ⟨["d1"], ["f1.yaml"], [], [], [], [], []⟩ demoEnv =
        (some t, none) ∧
      lookupA t "captain" = some (Value.str "usopp") :=
  (mergeValues_precedence ⟨["d1"], ["f1.yaml"], [], [], [], [], []⟩
      demoEnv).2
    [Step.mergeDoc [("captain", Value.str "luffy")]]
    (Step.mergeDoc [("captain", Value.str "usopp")]) [] "captain"
    (Value.str "usopp") rfl rfl rfl rfl (by intro s2 h; simp at h)

theorem read_alloc_ne (h : Heap) (m : List (String × GoVal)) (x : Nat)
    (hx : x ≠ h.next) : (h.alloc m).1.read x = h.read x := by
  simp only [Heap.alloc, Heap.read]
  generalize h.cells = cs
  induction cs with
  | nil => simp [readCells, Ne.symm hx]
  | cons hd rest ih =>
    obtain ⟨a1, m1⟩ := hd
    by_cases ha : a1 = x
    · simp [readCells, ha]
    · simp [readCells, ha, ih]

theorem read_write_ne (h : Heap) (a : Nat) (m : List (String × GoVal))
    (x : Nat) (hx : x ≠ a) : (h.write a m).read x = h.read x := by
  simp only [Heap.write, Heap.read]
  generalize h.cells = cs
  induction cs with
  | nil => simp [writeCells, readCells]
  | cons hd rest ih =>
    obtain ⟨a1, m1⟩ := hd
    by_cases ha : a1 = a
    · subst ha
      simp [writeCells, readCells, Ne.symm hx]
    · simp only [writeCells, if_neg ha, readCells]
      by_cases hax : a1 = x
      · simp [hax]
      · simp [hax, ih]

theorem next_write (h : Heap) (a : Nat) (m : List (String × GoVal)) :
    (h.write a m).next = h.next := rfl

theorem next_alloc (h : Heap) (m : List (String × GoVal)) :
    (h.alloc m).1.next = h.next + 1 := rfl

/-- Frame property of the loop, assuming the frame property of the
merge at the same fuel: the loop only writes the `out` cell and fresh
cells, and returns `out` itself. -/
theorem mergeLoopH_frame (fuel : Nat)
    (hP : ∀ h a b h2 out, mergeMapsH fuel h a b = some (h2, out) →
      h.next ≤ h2.next ∧ h.next ≤ out ∧
      ∀ x, x < h.next → h2.read x = h.read x) :
    ∀ l h out h2 o, mergeLoopH fuel h out l = some (h2, o) →
      o = out ∧ h.next ≤ h2.next ∧
      ∀ x, x < h.next → x ≠ out → h2.read x = h.read x := by
  intro l
  induction l with
  | nil =>
    intro h out h2 o hrun
    simp only [mergeLoopH] at hrun
    injection hrun with hp
    injection hp with hpa hpb
    subst hpa
    subst hpb
    exact ⟨rfl, Nat.le_refl _, fun x _ _ => rfl⟩
  | cons hd rest ih =>
    obtain ⟨k, v⟩ := hd
    intro h out h2 o hrun
    cases v with
    | scalar s =>
      simp only [mergeLoopH] at hrun
      cases hro : h.read out with
      | none => rw [hro] at hrun; exact absurd hrun (by simp)
      | some lo =>
        rw [hro] at hrun
        dsimp only at hrun
        rcases ih (h.write out (setG lo k (GoVal.scalar s))) out h2 o hrun
          with ⟨ho, hn, hr⟩
        refine ⟨ho, ?_, ?_⟩
        · rw [next_write] at hn
          exact hn
        · intro x hx hxo
          rw [hr x (by rw [next_write]; exact hx) hxo,
            read_write_ne h out _ x hxo]
    | mref vb =>
      simp only [mergeLoopH] at hrun
      cases hro : h.read out with
      | none => rw [hro] at hrun; exact absurd hrun (by simp)
      | some lo =>
        rw [hro] at hrun
        dsimp only at hrun
        cases hlk : lookupG lo k with
        | none =>
          rw [hlk] at hrun
          dsimp only at hrun
          rcases ih (h.write out (setG lo k (GoVal.mref vb))) out h2 o hrun
            with ⟨ho, hn, hr⟩
          refine ⟨ho, ?_, ?_⟩
          · rw [next_write] at hn
            exact hn
          · intro x hx hxo
            rw [hr x (by rw [next_write]; exact hx) hxo,
              read_write_ne h out _ x hxo]
        | some bv =>
          cases bv with
          | scalar s2 =>
            rw [hlk] at hrun
            dsimp only at hrun
            rcases ih (h.write out (setG lo k (GoVal.mref vb))) out h2 o
              hrun with ⟨ho, hn, hr⟩
            refine ⟨ho, ?_, ?_⟩
            · rw [next_write] at hn
              exact hn
            · intro x hx hxo
              rw [hr x (by rw [next_write]; exact hx) hxo,
                read_write_ne h out _ x hxo]
          | mref ba =>
            rw [hlk] at hrun
            dsimp only at hrun
            cases hm : mergeMapsH fuel h ba vb with
            | none => rw [hm] at hrun; exact absurd hrun (by simp)
            | some pr =>
              obtain ⟨hm2, mout⟩ := pr
              rw [hm] at hrun
              dsimp only at hrun
              rcases hP h ba vb hm2 mout hm with ⟨hPn, hPo, hPr⟩
              cases hro2 : hm2.read out with
              | none => rw [hro2] at hrun; exact absurd hrun (by simp)
              | some lo2 =>
                rw [hro2] at hrun
                dsimp only at hrun
                rcases ih (hm2.write out (setG lo2 k (GoVal.mref mout)))
                  out h2 o hrun with ⟨ho, hn, hr⟩
                refine ⟨ho, ?_, ?_⟩
                · rw [next_write] at hn
                  omega
                · intro x hx hxo
                  rw [hr x (by rw [next_write]; omega) hxo,
                    read_write_ne hm2 out _ x hxo, hPr x hx]

/-- Frame property of the heap-level merge: the final heap agrees with
the initial one on every pre-existing address, and the returned
reference is fresh. -/
theorem mergeMapsH_frame (fuel : Nat) :
    ∀ h a b h2 out, mergeMapsH fuel h a b = some (h2, out) →
      h.next ≤ h2.next ∧ h.next ≤ out ∧
      ∀ x, x < h.next → h2.read x = h.read x := by
  induction fuel with
  | zero =>
    intro h a b h2 out hrun
    simp [mergeMapsH] at hrun
  | succ fuel ih =>
    intro h a b h2 out hrun
    simp only [mergeMapsH] at hrun
    cases hra : h.read a with
    | none => rw [hra] at hrun; exact absurd hrun (by simp)
    | some la =>
      cases hrb : h.read b with
      | none => rw [hra, hrb] at hrun; exact absurd hrun (by simp)
      | some lb =>
        rw [hra, hrb] at hrun
        dsimp only [Heap.alloc] at hrun
        rcases mergeLoopH_frame fuel ih lb
            ⟨h.cells ++ [(h.next, la)], h.next + 1⟩ h.next h2 out hrun
          with ⟨ho, hn, hr⟩
        dsimp only at hn hr
        refine ⟨by omega, by omega, ?_⟩
        intro x hx
        have hxo : x ≠ h.next := by omega
        rw [hr x (by omega) hxo]
        exact read_alloc_ne h la x hxo

/-- C8: heap-level `mergeMaps` never mutates either input tree: every
cell that existed before the call — in particular every cell of the two
input trees — reads identically afterwards, and the returned tree is a
freshly allocated reference distinct from every pre-existing one. -/
theorem mergeMaps_no_mutation (fuel : Nat) (h : Heap) (a b : Nat)
    (h2 : Heap) (out : Nat) (ha : a < h.next) (hb : b < h.next)
    (hrun : mergeMapsH fuel h a b = some (h2, out)) :
    (∀ x, x < h.next → h2.read x = h.read x) ∧
    h2.read a = h.read a ∧ h2.read b = h.read b ∧
    h.next ≤ out ∧ out ≠ a ∧ out ≠ b := by
  rcases mergeMapsH_frame fuel h a b h2 out hrun with ⟨hn, ho, hr⟩
  exact ⟨hr, hr a ha, hr b hb, ho, by omega, by omega⟩

/-- Witness for C8 at a concrete two-cell heap: merging cell 0 into a
copy refreshed from cell 1 leaves both original cells intact and
returns the fresh address 2. -/
theorem mergeMaps_no_mutation_witness :
    (0 : Nat) < 2 ∧ (1 : Nat) < 2 ∧
    mergeMapsH 2
        ⟨[(0, [("x", GoVal.scalar "1")]), (1, [("x", GoVal.scalar "2")])],
          2⟩ 0 1 =
      some (⟨[(0, [("x", GoVal.scalar "1")]),
        (1, [("x", GoVal.scalar "2")]),
        (2, [("x", GoVal.scalar "2")])], 3⟩, 2) ∧
    (Heap.read ⟨[(0, [("x", GoVal.scalar "1")]),
        (1, [("x", GoVal.scalar "2")]),
        (2, [("x", GoVal.scalar "2")])], 3⟩ 0 =
      Heap.read ⟨[(0, [("x", GoVal.scalar "1")]),
        (1, [("x", GoVal.scalar "2")])], 2⟩ 0) ∧
    (2 : Nat) ≤ 2 := by
  have hrun : mergeMapsH 2
      ⟨[(0, [("x", GoVal.scalar "1")]), (1, [("x", GoVal.scalar "2")])],
        2⟩ 0 1 =
      some (⟨[(0, [("x", GoVal.scalar "1")]),
        (1, [("x", GoVal.scalar "2")]),
        (2, [("x", GoVal.scalar "2")])], 3⟩, 2) := by
    simp [mergeMapsH, mergeLoopH, Heap.read, Heap.alloc, Heap.write,
      readCells, writeCells, lookupG, setG]
  have hth := mergeMaps_no_mutation 2
    ⟨[(0, [("x", GoVal.scalar "1")]), (1, [("x", GoVal.scalar "2")])], 2⟩
    0 1
    ⟨[(0, [("x", GoVal.scalar "1")]), (1, [("x", GoVal.scalar "2")]),
      (2, [("x", GoVal.scalar "2")])], 3⟩ 2
    (by decide) (by decide) hrun
  exact ⟨by omega, by omega, hrun, hth.2.1, hth.2.2.2.1⟩

end Helm

